import Mathlib

/-!
Shallow embedding of the Chinese-checkers rules engine (`src/board.rs`):
the hex-coordinate geometry, triangle/board generation, the board map with
its put/remove/swap operations, the shift/jump-chain move validator, player
configuration, setup, and turn rotation.  The `HashMap<HexCoord, Spot>` is
modelled as an association list with unique keys (insertion on an existing
key is in-place replacement, which is what every guarded write in the source
performs); the `HashSet<Player>` is modelled as a list used with set
semantics.
-/

set_option maxRecDepth 100000

namespace Checkers

/-- The six sides of the star (`SideOfStar` in the source), ordered `A < B <
C < D < E < F` as the Rust `derive(PartialOrd, Ord)` orders declaration
order. -/
inductive SideOfStar where
  | A
  | B
  | C
  | D
  | E
  | F
deriving DecidableEq, Repr, Fintype

namespace SideOfStar

/-- `SideOfStar::forward`: the next side clockwise. -/
def forward : SideOfStar → SideOfStar
  | A => B
  | B => C
  | C => D
  | D => E
  | E => F
  | F => A

/-- `SideOfStar::opposite`: the side three steps away. -/
def opposite : SideOfStar → SideOfStar
  | A => D
  | B => E
  | C => F
  | D => A
  | E => B
  | F => C

/-- `SideOfStar::all`. -/
def all : List SideOfStar := [A, B, C, D, E, F]

/-- The ordinal of a side under the derived `Ord` (declaration order). -/
def sideIdx : SideOfStar → Nat
  | A => 0
  | B => 1
  | C => 2
  | D => 3
  | E => 4
  | F => 5

end SideOfStar

/-- `Player` is an alias for `SideOfStar` in the source. -/
abbrev Player := SideOfStar

/-- A board cell (`Spot`): empty or holding a player's piece. -/
inductive Spot where
  | Empty
  | Player (p : Player)
deriving DecidableEq, Repr

namespace Spot

/-- `Spot::is_empty`. -/
def is_empty : Spot → Bool
  | Empty => true
  | Player _ => false

/-- `Spot::is_full`. -/
def is_full (s : Spot) : Bool := !s.is_empty

end Spot

/-- Axial hex coordinate (`HexCoord`): `horz` and `slant` axes.  The Rust
`i32` components are modelled as `Int`; every coordinate this program
manipulates is far from the 32-bit boundary, so wrap-around never occurs. -/
structure HexCoord where
  horz : Int
  slant : Int
deriving DecidableEq, Repr

namespace HexCoord

instance : Add HexCoord := ⟨fun a b => ⟨a.horz + b.horz, a.slant + b.slant⟩⟩

instance : Neg HexCoord := ⟨fun a => ⟨-a.horz, -a.slant⟩⟩

instance : Sub HexCoord := ⟨fun a b => a + (-b)⟩

instance : HMul HexCoord Int HexCoord :=
  ⟨fun a k => ⟨a.horz * k, a.slant * k⟩⟩

/-- `HexCoord::NEIGHBOR_OFFSETS`. -/
def NEIGHBOR_OFFSETS : List HexCoord :=
  [⟨1, 0⟩, ⟨1, -1⟩, ⟨0, -1⟩, ⟨-1, 0⟩, ⟨-1, 1⟩, ⟨0, 1⟩]

/-- `HexCoord::neighbors`: the six adjacent coordinates. -/
def neighbors (c : HexCoord) : List HexCoord :=
  NEIGHBOR_OFFSETS.map (fun o => c + o)

/-- `HexCoord::jump_neighbors`: the six coordinates two steps away (jump
landing cells). -/
def jump_neighbors (c : HexCoord) : List HexCoord :=
  NEIGHBOR_OFFSETS.map (fun o => c + o * (2 : Int))

/-- `HexCoord::triangle_tip_up`: row `o` (for `o` in `0..size`) holds the
coordinates `(horz - j, slant + o)` for `j` in `0..=o`. -/
def triangle_tip_up (c : HexCoord) (size : Int) : List HexCoord :=
  (List.range size.toNat).flatMap (fun o =>
    ((List.range size.toNat).take (o + 1)).map
      (fun j => HexCoord.mk (c.horz - Int.ofNat j) (c.slant + Int.ofNat o)))

/-- `HexCoord::triangle_tip_down`: row `o` holds `(horz + j, slant - o)` for
`j` in `0..=o`. -/
def triangle_tip_down (c : HexCoord) (size : Int) : List HexCoord :=
  (List.range size.toNat).flatMap (fun o =>
    ((List.range size.toNat).take (o + 1)).map
      (fun j => HexCoord.mk (c.horz + Int.ofNat j) (c.slant - Int.ofNat o)))

end HexCoord

/-- First-match lookup in the association list modelling the `HashMap`. -/
def lookupCell : List (HexCoord × Spot) → HexCoord → Option Spot
  | [], _ => none
  | e :: l, c => if e.1 = c then some e.2 else lookupCell l c

/-- In-place replacement at a key, modelling `HashMap::insert` on a key that
is already present (every write in the source is guarded by
`is_valid`/`contains_key`). -/
def updateCell : List (HexCoord × Spot) → HexCoord → Spot → List (HexCoord × Spot)
  | [], _, _ => []
  | e :: l, c, s => (if e.1 = c then (c, s) else e) :: updateCell l c s

/-- The `Board` aggregate: cell map, active players, and whose turn it is. -/
structure Board where
  board : List (HexCoord × Spot)
  players : List Player
  turn : Player

namespace Board

/-- `Board::get`. -/
def get (b : Board) (c : HexCoord) : Option Spot :=
  lookupCell b.board c

/-- `Board::is_valid` (`contains_key`). -/
def is_valid (b : Board) (c : HexCoord) : Bool :=
  (b.get c).isSome

/-- `Board::put_player`. -/
def put_player (b : Board) (c : HexCoord) (p : Player) : Board :=
  if b.is_valid c then { b with board := updateCell b.board c (Spot.Player p) }
  else b

/-- `Board::remove_player`. -/
def remove_player (b : Board) (c : HexCoord) : Board :=
  if b.is_valid c then { b with board := updateCell b.board c Spot.Empty }
  else b

/-- `Board::swap`. -/
def swap (b : Board) (c1 c2 : HexCoord) : Board :=
  if !b.is_valid c1 || !b.is_valid c2 then b
  else
    match b.get c1, b.get c2 with
    | some s1, some s2 =>
        { b with board := updateCell (updateCell b.board c1 s2) c2 s1 }
    | _, _ => b

end Board

/-- Whether an optional spot matches the Rust pattern `Some(Spot::Player(_))`. -/
def isPlayerSpot : Option Spot → Bool
  | some (Spot.Player _) => true
  | _ => false

/-- One pass of the inner `for (neighbor, jump_neighbor)` loop of
`Board::validate_move` for a single jump center `c`: walks the offset list in
order, accumulating newly discovered jump centers in `acc`; returns `none`
the instant the landing cell equals `endC` (the Rust `return true`).  The
Rust `if let (Some(Spot::Player(_)), Some(Spot::Empty))` pattern guard is
rendered as the `isPlayerSpot`/`Empty` conjunction. -/
def scanOffsets (b : Board) (endC : HexCoord) (traversed : List HexCoord)
    (c : HexCoord) : List HexCoord → List HexCoord → Option (List HexCoord)
  | [], acc => some acc
  | o :: os, acc =>
    let j := c + o * (2 : Int)
    if j ∈ traversed then scanOffsets b endC traversed c os acc
    else if isPlayerSpot (b.get (c + o)) = true ∧ b.get j = some Spot.Empty then
      (if j = endC then none
       else scanOffsets b endC traversed c os (acc ++ [j]))
    else scanOffsets b endC traversed c os acc

/-- The `for &jump_center in &jump_centers` loop of `Board::validate_move`:
processes each jump center of the current BFS layer in order. -/
def scanCenters (b : Board) (endC : HexCoord) (traversed : List HexCoord) :
    List HexCoord → List HexCoord → Option (List HexCoord)
  | [], acc => some acc
  | c :: cs, acc =>
    match scanOffsets b endC traversed c HexCoord.NEIGHBOR_OFFSETS acc with
    | none => none
    | some acc2 => scanCenters b endC traversed cs acc2

/-- The `while !jump_centers.is_empty()` loop of `Board::validate_move`,
with explicit fuel: `some true` means the Rust loop returned `true`, `some
false` means it fell through to `false`, and `none` means the fuel ran out
before the loop finished (proved impossible for the fuel used by
`validate_move`). -/
def bfsLoop (b : Board) (endC : HexCoord) :
    Nat → List HexCoord → List HexCoord → Option Bool
  | _, _, [] => some false
  | 0, _, _ :: _ => none
  | fuel + 1, traversed, c :: cs =>
    match scanCenters b endC traversed (c :: cs) [] with
    | none => some true
    | some njs => bfsLoop b endC fuel (traversed ++ (c :: cs)) njs

namespace Board

/-- `Board::validate_move`.  The Rust BFS terminates for every input; fuel
`2 * b.board.length` is proved sufficient below, so `getD false` never
actually hits a `none`. -/
def validate_move (b : Board) (start_coord end_coord : HexCoord) : Bool :=
  match b.get start_coord, b.get end_coord with
  | some start_spot, some end_spot =>
    if start_spot.is_empty || end_spot.is_full then false
    else if end_coord ∈ start_coord.neighbors then true
    else (bfsLoop b end_coord (2 * b.board.length) [] [start_coord]).getD false
  | _, _ => false

/-- `Board::make_move`: returns the new board and the `bool` the Rust
method returns. -/
def make_move (b : Board) (start_coord end_coord : HexCoord) : Board × Bool :=
  let is_move_valid := b.validate_move start_coord end_coord
  ((if is_move_valid then b.swap start_coord end_coord else b), is_move_valid)

end Board

/-- The `player_tip` closure inside `Board::setup_players`. -/
def player_tip : SideOfStar → List HexCoord
  | SideOfStar.A => HexCoord.triangle_tip_up ⟨4, -8⟩ 4
  | SideOfStar.B => HexCoord.triangle_tip_down ⟨5, -1⟩ 4
  | SideOfStar.C => HexCoord.triangle_tip_up ⟨4, 1⟩ 4
  | SideOfStar.D => HexCoord.triangle_tip_down ⟨-4, 8⟩ 4
  | SideOfStar.E => HexCoord.triangle_tip_up ⟨-5, 1⟩ 4
  | SideOfStar.F => HexCoord.triangle_tip_down ⟨-4, -1⟩ 4

/-- The inner `for player_tip_coord in player_tip` loop of
`Board::setup_players`: writes one side's whole tip, placing the player's
pieces when the side is active and clearing the cells when it is not. -/
def write_tip (player_exists : Bool) (player : Player) (tip : List HexCoord)
    (b : Board) : Board :=
  tip.foldl
    (fun acc2 c => if player_exists then acc2.put_player c player
                   else acc2.remove_player c) b

/-- `HashSet::iter().min()` on the player set: the side with the least
ordinal, `none` on an empty set. -/
def minSide : List Player → Option Player
  | [] => none
  | s :: l =>
    match minSide l with
    | none => some s
    | some m => some (if s.sideIdx ≤ m.sideIdx then s else m)

/-- `Board::setup_players`.  The final Rust line unwraps
`players.iter().min()`, which panics on an empty player set; the embedding
leaves `turn` unchanged in that (never-exercised) case. -/
def Board.setup_players (b : Board) : Board :=
  let b1 := SideOfStar.all.foldl
    (fun acc player =>
      write_tip (player ∈ acc.players) player (player_tip player) acc) b
  { b1 with turn := (minSide b1.players).getD b1.turn }

/-- `gen_board`: the 121-cell star, all cells `Empty`. -/
def gen_board : List (HexCoord × Spot) :=
  ((HexCoord.triangle_tip_up ⟨4, -8⟩ 13)
    ++ (HexCoord.triangle_tip_down ⟨-4, -1⟩ 4)
    ++ (HexCoord.triangle_tip_down ⟨5, -1⟩ 4)
    ++ (HexCoord.triangle_tip_down ⟨-4, 8⟩ 4)).map (fun c => (c, Spot.Empty))

/-- `gen_players`: resolve a player count to the canonical side set; any
count outside `{2,3,4,6}` falls back to 2.  The final arm models the Rust
`unreachable!()` and is provably never taken. -/
def gen_players (players_count : Nat) : List Player :=
  let pc := if players_count = 2 ∨ players_count = 3 ∨ players_count = 4
               ∨ players_count = 6 then players_count else 2
  if pc = 2 then [SideOfStar.A, SideOfStar.D]
  else if pc = 3 then [SideOfStar.A, SideOfStar.C, SideOfStar.E]
  else if pc = 4 then [SideOfStar.A, SideOfStar.B, SideOfStar.D, SideOfStar.E]
  else if pc = 6 then SideOfStar.all
  else []

/-- `Board::new` (`Player::default()` is `A`). -/
def Board.new (players_count : Nat) : Board :=
  Board.setup_players
    { board := gen_board, players := gen_players players_count,
      turn := SideOfStar.A }

/-- `n`-fold application of `SideOfStar::forward`. -/
def forwardN : Nat → SideOfStar → SideOfStar
  | 0, s => s
  | n + 1, s => forwardN n s.forward

/-- The `while !self.players.contains(&next_turn)` loop of
`Board::start_next_turn`, with fuel.  For a non-empty player set the Rust
loop stops within six steps, so fuel 6 is exact; on an empty player set the
Rust loop diverges and the embedding returns the last candidate. -/
def nextActiveSide (players : List Player) : Nat → SideOfStar → SideOfStar
  | 0, s => s
  | n + 1, s => if s ∈ players then s else nextActiveSide players n s.forward

/-- `Board::start_next_turn`. -/
def Board.start_next_turn (b : Board) : Board :=
  { b with turn := nextActiveSide b.players 6 b.turn.forward }

/-- The key set of the cell map, as the list of keys in storage order. -/
def boardKeys (b : Board) : List HexCoord :=
  b.board.map Prod.fst

/-- One jump of the chained-jump rule, read off the inner BFS check of
`Board::validate_move`: from jump center `c` in direction `o` (one of the
six unit offsets) to the landing cell `c + o*2`, where the adjacent cell
`c + o` is occupied by any side and the landing cell is empty. -/
def stepJump (b : Board) (c j : HexCoord) : Prop :=
  ∃ o ∈ HexCoord.NEIGHBOR_OFFSETS, j = c + o * (2 : Int) ∧
    (∃ p, b.get (c + o) = some (Spot.Player p)) ∧ b.get j = some Spot.Empty

/-- The value `setup_players` writes into a cell of side `q`'s starting
tip: the side's piece when the side is active, `Empty` otherwise. -/
def setupSpot (players : List Player) (q : SideOfStar) : Spot :=
  if q ∈ players then Spot.Player q else Spot.Empty

/-- A two-player board after `A` shifts the piece at `(4,-5)` to the empty
neighbor `(4,-4)`, vacating a cell of `A`'s starting tip. -/
def c9Board1 : Board :=
  ((Board.new 2).make_move ⟨4, -5⟩ ⟨4, -4⟩).1

/-- `c9Board1` after side `D` is toggled off (`HashSet::remove`) and
`setup_players` is re-run. -/
def c9Board3 : Board :=
  Board.setup_players
    { c9Board1 with
      players := c9Board1.players.filter (fun q => q ≠ SideOfStar.D) }

/-! ### Association-list lemmas -/

theorem lookup_updateCell_self (l : List (HexCoord × Spot)) (c : HexCoord)
    (v : Spot) :
    lookupCell (updateCell l c v) c = (lookupCell l c).map (fun _ => v) := by
  induction l with
  | nil => rfl
  | cons e l ih =>
    by_cases h : e.1 = c
    · simp [updateCell, lookupCell, h]
    · simp [updateCell, lookupCell, h, ih]

theorem lookup_updateCell_ne (l : List (HexCoord × Spot)) (c k : HexCoord)
    (v : Spot) (h : k ≠ c) :
    lookupCell (updateCell l c v) k = lookupCell l k := by
  induction l with
  | nil => rfl
  | cons e l ih =>
    by_cases he : e.1 = c
    · have : ¬ (c = k) := fun hh => h hh.symm
      simp [updateCell, lookupCell, he, this, ih]
    · simp [updateCell, lookupCell, he, ih]

theorem keys_updateCell (l : List (HexCoord × Spot)) (c : HexCoord) (v : Spot) :
    (updateCell l c v).map Prod.fst = l.map Prod.fst := by
  induction l with
  | nil => rfl
  | cons e l ih =>
    by_cases h : e.1 = c
    · simp [updateCell, h, ih]
    · simp [updateCell, h, ih]

/-! ### Pointwise behaviour of the board writers -/

namespace Board

theorem get_put_player (b : Board) (c : HexCoord) (p : Player) (k : HexCoord) :
    (b.put_player c p).get k =
      if k = c ∧ (b.get c).isSome = true then some (Spot.Player p)
      else b.get k := by
  unfold put_player is_valid
  simp only [get]
  by_cases hv : (lookupCell b.board c).isSome = true
  · rw [if_pos hv]
    dsimp only
    by_cases hk : k = c
    · subst hk
      rw [lookup_updateCell_self]
      cases hg : lookupCell b.board k with
      | none => rw [hg] at hv; simp at hv
      | some s => simp [hv]
    · rw [lookup_updateCell_ne _ _ _ _ hk]
      simp [hk]
  · rw [if_neg hv]
    simp [hv]

theorem get_remove_player (b : Board) (c : HexCoord) (k : HexCoord) :
    (b.remove_player c).get k =
      if k = c ∧ (b.get c).isSome = true then some Spot.Empty
      else b.get k := by
  unfold remove_player is_valid
  simp only [get]
  by_cases hv : (lookupCell b.board c).isSome = true
  · rw [if_pos hv]
    dsimp only
    by_cases hk : k = c
    · subst hk
      rw [lookup_updateCell_self]
      cases hg : lookupCell b.board k with
      | none => rw [hg] at hv; simp at hv
      | some s => simp [hv]
    · rw [lookup_updateCell_ne _ _ _ _ hk]
      simp [hk]
  · rw [if_neg hv]
    simp [hv]

theorem isSome_get_put_player (b : Board) (c : HexCoord) (p : Player)
    (k : HexCoord) :
    ((b.put_player c p).get k).isSome = (b.get k).isSome := by
  rw [get_put_player]
  by_cases h : k = c ∧ (b.get c).isSome = true
  · simp [h, h.1 ▸ h.2]
  · simp [h]

theorem isSome_get_remove_player (b : Board) (c : HexCoord) (k : HexCoord) :
    ((b.remove_player c).get k).isSome = (b.get k).isSome := by
  rw [get_remove_player]
  by_cases h : k = c ∧ (b.get c).isSome = true
  · simp [h, h.1 ▸ h.2]
  · simp [h]

theorem players_put_player (b : Board) (c : HexCoord) (p : Player) :
    (b.put_player c p).players = b.players := by
  unfold put_player; split <;> rfl

theorem players_remove_player (b : Board) (c : HexCoord) :
    (b.remove_player c).players = b.players := by
  unfold remove_player; split <;> rfl

theorem turn_put_player (b : Board) (c : HexCoord) (p : Player) :
    (b.put_player c p).turn = b.turn := by
  unfold put_player; split <;> rfl

theorem turn_remove_player (b : Board) (c : HexCoord) :
    (b.remove_player c).turn = b.turn := by
  unfold remove_player; split <;> rfl

end Board

/-! ### Key-set preservation -/

theorem keys_put_player (b : Board) (c : HexCoord) (p : Player) :
    boardKeys (b.put_player c p) = boardKeys b := by
  unfold Board.put_player
  split
  · exact keys_updateCell b.board c (Spot.Player p)
  · rfl

theorem keys_remove_player (b : Board) (c : HexCoord) :
    boardKeys (b.remove_player c) = boardKeys b := by
  unfold Board.remove_player
  split
  · exact keys_updateCell b.board c Spot.Empty
  · rfl

theorem keys_swap (b : Board) (c1 c2 : HexCoord) :
    boardKeys (b.swap c1 c2) = boardKeys b := by
  unfold Board.swap
  split
  · rfl
  · cases hg1 : b.get c1 with
    | none => simp
    | some s1 =>
      cases hg2 : b.get c2 with
      | none => simp
      | some s2 => simp [boardKeys, keys_updateCell]

theorem write_tip_cons (ex : Bool) (p : Player) (c : HexCoord)
    (rest : List HexCoord) (b : Board) :
    write_tip ex p (c :: rest) b =
      write_tip ex p rest (if ex then b.put_player c p
                           else b.remove_player c) := by
  simp [write_tip]

theorem keys_write_tip (ex : Bool) (p : Player) (tip : List HexCoord) :
    ∀ b : Board, boardKeys (write_tip ex p tip b) = boardKeys b := by
  induction tip with
  | nil => intro b; rfl
  | cons c rest ih =>
    intro b
    rw [write_tip_cons, ih]
    by_cases hex : ex = true
    · simp [hex, keys_put_player]
    · simp at hex
      simp [hex, keys_remove_player]

theorem players_write_tip (ex : Bool) (p : Player) (tip : List HexCoord) :
    ∀ b : Board, (write_tip ex p tip b).players = b.players := by
  induction tip with
  | nil => intro b; rfl
  | cons c rest ih =>
    intro b
    rw [write_tip_cons, ih]
    by_cases hex : ex = true
    · simp [hex, Board.players_put_player]
    · simp at hex
      simp [hex, Board.players_remove_player]

theorem turn_write_tip (ex : Bool) (p : Player) (tip : List HexCoord) :
    ∀ b : Board, (write_tip ex p tip b).turn = b.turn := by
  induction tip with
  | nil => intro b; rfl
  | cons c rest ih =>
    intro b
    rw [write_tip_cons, ih]
    by_cases hex : ex = true
    · simp [hex, Board.turn_put_player]
    · simp at hex
      simp [hex, Board.turn_remove_player]

theorem boardKeys_set_turn (b : Board) (t : Player) :
    boardKeys { b with turn := t } = boardKeys b := rfl

theorem keys_setup_players (b : Board) :
    boardKeys (b.setup_players) = boardKeys b := by
  unfold Board.setup_players
  simp only [SideOfStar.all, List.foldl]
  rw [boardKeys_set_turn]
  simp only [keys_write_tip]

theorem players_setup_players (b : Board) :
    (b.setup_players).players = b.players := by
  unfold Board.setup_players
  simp only [SideOfStar.all, List.foldl]
  simp only [players_write_tip]

theorem keys_make_move (b : Board) (s e : HexCoord) :
    boardKeys (b.make_move s e).1 = boardKeys b := by
  unfold Board.make_move
  dsimp only
  split
  · exact keys_swap b s e
  · rfl

/-! ### Pointwise characterization of setup -/

theorem isSome_get_write_tip (ex : Bool) (p : Player) (tip : List HexCoord) :
    ∀ (b : Board) (k : HexCoord),
      ((write_tip ex p tip b).get k).isSome = (b.get k).isSome := by
  induction tip with
  | nil => intro b k; rfl
  | cons c rest ih =>
    intro b k
    rw [write_tip_cons, ih]
    cases ex
    · simp [Board.isSome_get_remove_player]
    · simp [Board.isSome_get_put_player]

/-- Effect of writing one side's whole tip, pointwise. -/
theorem get_write_tip (ex : Bool) (p : Player) (tip : List HexCoord) :
    ∀ (b : Board) (k : HexCoord),
      (write_tip ex p tip b).get k =
        if k ∈ tip ∧ (b.get k).isSome = true then
          some (if ex then Spot.Player p else Spot.Empty)
        else b.get k := by
  induction tip with
  | nil =>
    intro b k
    simp [write_tip]
  | cons c rest ih =>
    intro b k
    rw [write_tip_cons, ih]
    have hps : ((if ex then b.put_player c p else b.remove_player c).get k).isSome
        = (b.get k).isSome := by
      cases ex
      · simp [Board.isSome_get_remove_player]
      · simp [Board.isSome_get_put_player]
    have hv : (if ex then b.put_player c p else b.remove_player c).get k =
        if k = c ∧ (b.get c).isSome = true then
          some (if ex then Spot.Player p else Spot.Empty)
        else b.get k := by
      cases ex
      · simp [Board.get_remove_player]
      · simp [Board.get_put_player]
    rw [hps, hv]
    by_cases hkc : k = c
    · subst hkc
      by_cases hpres : (b.get k).isSome = true
      · by_cases hkr : k ∈ rest
        · simp [hkr, hpres]
        · simp [hkr, hpres]
      · simp [hpres]
    · by_cases hpres : (b.get k).isSome = true
      · by_cases hkr : k ∈ rest
        · simp [hkr, hpres, hkc]
        · simp [hkr, hpres, hkc]
      · simp [hpres, hkc]

theorem get_set_turn (b : Board) (t : Player) (k : HexCoord) :
    ({ b with turn := t } : Board).get k = b.get k := rfl

/-- Pointwise effect of folding `write_tip` over any list of sides (the
body of `setup_players`): a left fold of prioritized tip writes, the
last-written side winning. -/
theorem get_fold_write_tips (sides : List SideOfStar) :
    ∀ (b : Board) (k : HexCoord),
      ((sides.foldl (fun acc player =>
          write_tip (player ∈ acc.players) player (player_tip player) acc)
        b).get k) =
      sides.foldl (fun r q =>
          if k ∈ player_tip q ∧ (b.get k).isSome = true then
            some (setupSpot b.players q)
          else r) (b.get k) := by
  induction sides with
  | nil => intro b k; rfl
  | cons q rest ih =>
    intro b k
    simp only [List.foldl]
    rw [ih]
    simp only [isSome_get_write_tip, players_write_tip]
    simp only [get_write_tip, setupSpot, decide_eq_true_eq]

/-- Pointwise effect of `setup_players` on the cell map: each of the six
starting tips receives the side's `setupSpot` (later-written sides taking
priority in this nested form, though the tips are in fact disjoint), and
every cell outside all tips is untouched. -/
theorem get_setup_players (b : Board) (k : HexCoord) :
    (b.setup_players).get k =
      if k ∈ player_tip SideOfStar.F ∧ (b.get k).isSome = true then
        some (setupSpot b.players SideOfStar.F)
      else if k ∈ player_tip SideOfStar.E ∧ (b.get k).isSome = true then
        some (setupSpot b.players SideOfStar.E)
      else if k ∈ player_tip SideOfStar.D ∧ (b.get k).isSome = true then
        some (setupSpot b.players SideOfStar.D)
      else if k ∈ player_tip SideOfStar.C ∧ (b.get k).isSome = true then
        some (setupSpot b.players SideOfStar.C)
      else if k ∈ player_tip SideOfStar.B ∧ (b.get k).isSome = true then
        some (setupSpot b.players SideOfStar.B)
      else if k ∈ player_tip SideOfStar.A ∧ (b.get k).isSome = true then
        some (setupSpot b.players SideOfStar.A)
      else b.get k := by
  unfold Board.setup_players
  rw [get_set_turn, get_fold_write_tips]
  simp only [SideOfStar.all, List.foldl]

theorem isSome_get_setup_players (b : Board) (k : HexCoord) :
    ((b.setup_players).get k).isSome = (b.get k).isSome := by
  unfold Board.setup_players
  rw [get_set_turn]
  simp only [SideOfStar.all, List.foldl]
  simp only [isSome_get_write_tip]

/-- The six starting tips are pairwise disjoint. -/
theorem tips_disjoint (q1 q2 : SideOfStar) (h : q1 ≠ q2) :
    ∀ c ∈ player_tip q1, c ∉ player_tip q2 := by
  revert h
  revert q1 q2
  decide

theorem minSide_eq_none (l : List Player) : minSide l = none ↔ l = [] := by
  cases l with
  | nil => simp [minSide]
  | cons s r =>
    simp only [minSide]
    cases minSide r <;> simp

theorem minSide_spec (l : List Player) (h : l ≠ []) :
    ∃ m, minSide l = some m ∧ m ∈ l ∧
      ∀ q ∈ l, m.sideIdx ≤ q.sideIdx := by
  induction l with
  | nil => exact absurd rfl h
  | cons s r ih =>
    by_cases hr : r = []
    · subst hr
      exact ⟨s, rfl, by simp, by simp⟩
    · obtain ⟨m, hm, hmem, hmin⟩ := ih hr
      refine ⟨if s.sideIdx ≤ m.sideIdx then s else m, ?_, ?_, ?_⟩
      · simp [minSide, hm]
      · by_cases hle : s.sideIdx ≤ m.sideIdx
        · simp [hle]
        · simp [hle]
          exact Or.inr hmem
      · intro q hq
        rcases List.mem_cons.mp hq with hq | hq
        · rw [hq]
          by_cases hle : s.sideIdx ≤ m.sideIdx
          · simp [hle]
          · simp [hle]
            omega
        · by_cases hle : s.sideIdx ≤ m.sideIdx
          · simp [hle]
            exact le_trans hle (hmin q hq)
          · simp [hle]
            exact hmin q hq

/-! ### BFS layer lemmas -/

theorem isSome_lookupCell_iff (l : List (HexCoord × Spot)) (x : HexCoord) :
    (lookupCell l x).isSome = true ↔ x ∈ l.map Prod.fst := by
  induction l with
  | nil => simp [lookupCell]
  | cons e l ih =>
    by_cases he : e.1 = x
    · simp [lookupCell, he]
    · have : ¬ (x = e.1) := fun h => he h.symm
      simp [lookupCell, he, ih, this]

theorem scanOffsets_mono (b : Board) (e : HexCoord) (T : List HexCoord)
    (c : HexCoord) :
    ∀ (os acc acc2 : List HexCoord),
      scanOffsets b e T c os acc = some acc2 → ∀ x ∈ acc, x ∈ acc2 := by
  intro os
  induction os with
  | nil =>
    intro acc acc2 h x hx
    simp only [scanOffsets, Option.some.injEq] at h
    exact h ▸ hx
  | cons o os ih =>
    intro acc acc2 h x hx
    simp only [scanOffsets] at h
    by_cases h1 : (c + o * (2 : Int)) ∈ T
    · rw [if_pos h1] at h
      exact ih acc acc2 h x hx
    · rw [if_neg h1] at h
      by_cases h2 : isPlayerSpot (b.get (c + o)) = true ∧
          b.get (c + o * (2 : Int)) = some Spot.Empty
      · rw [if_pos h2] at h
        by_cases h3 : (c + o * (2 : Int)) = e
        · rw [if_pos h3] at h
          exact absurd h (by simp)
        · rw [if_neg h3] at h
          exact ih _ acc2 h x (List.mem_append_left _ hx)
      · rw [if_neg h2] at h
        exact ih acc acc2 h x hx

/-- Every jump center collected by `scanOffsets` beyond the accumulator is
an empty on-board cell not yet traversed and distinct from the target. -/
theorem scanOffsets_new (b : Board) (e : HexCoord) (T : List HexCoord)
    (c : HexCoord) :
    ∀ (os acc acc2 : List HexCoord),
      scanOffsets b e T c os acc = some acc2 →
      ∀ x ∈ acc2, x ∈ acc ∨
        (b.get x = some Spot.Empty ∧ x ∉ T ∧ x ≠ e) := by
  intro os
  induction os with
  | nil =>
    intro acc acc2 h x hx
    simp only [scanOffsets, Option.some.injEq] at h
    exact Or.inl (h ▸ hx)
  | cons o os ih =>
    intro acc acc2 h x hx
    simp only [scanOffsets] at h
    by_cases h1 : (c + o * (2 : Int)) ∈ T
    · rw [if_pos h1] at h
      exact ih acc acc2 h x hx
    · rw [if_neg h1] at h
      by_cases h2 : isPlayerSpot (b.get (c + o)) = true ∧
          b.get (c + o * (2 : Int)) = some Spot.Empty
      · rw [if_pos h2] at h
        by_cases h3 : (c + o * (2 : Int)) = e
        · rw [if_pos h3] at h
          exact absurd h (by simp)
        · rw [if_neg h3] at h
          rcases ih _ acc2 h x hx with hacc | hnew
          · rcases List.mem_append.mp hacc with hacc | hj
            · exact Or.inl hacc
            · have hxj : x = c + o * (2 : Int) := by simpa using hj
              subst hxj
              exact Or.inr ⟨h2.2, h1, h3⟩
          · exact Or.inr hnew
      · rw [if_neg h2] at h
        exact ih acc acc2 h x hx

/-- If `scanOffsets` finishes a center without returning true, every valid
jump from that center either was already traversed or has been collected,
and none of them lands on the target. -/
theorem scanOffsets_complete (b : Board) (e : HexCoord) (T : List HexCoord)
    (c : HexCoord) :
    ∀ (os acc acc2 : List HexCoord),
      scanOffsets b e T c os acc = some acc2 →
      ∀ o ∈ os, isPlayerSpot (b.get (c + o)) = true →
        b.get (c + o * (2 : Int)) = some Spot.Empty →
        (c + o * (2 : Int)) ∉ T →
        (c + o * (2 : Int)) ≠ e ∧ (c + o * (2 : Int)) ∈ acc2 := by
  intro os
  induction os with
  | nil =>
    intro acc acc2 h o ho
    exact absurd ho (by simp)
  | cons o2 os ih =>
    intro acc acc2 h o ho hp hemp hnT
    simp only [scanOffsets] at h
    rcases List.mem_cons.mp ho with rfl | ho2
    · rw [if_neg hnT, if_pos ⟨hp, hemp⟩] at h
      by_cases h3 : (c + o * (2 : Int)) = e
      · rw [if_pos h3] at h
        exact absurd h (by simp)
      · rw [if_neg h3] at h
        exact ⟨h3, scanOffsets_mono b e T c os _ acc2 h _
          (List.mem_append_right _ (by simp))⟩
    · by_cases h1 : (c + o2 * (2 : Int)) ∈ T
      · rw [if_pos h1] at h
        exact ih acc acc2 h o ho2 hp hemp hnT
      · rw [if_neg h1] at h
        by_cases h2 : isPlayerSpot (b.get (c + o2)) = true ∧
            b.get (c + o2 * (2 : Int)) = some Spot.Empty
        · rw [if_pos h2] at h
          by_cases h3 : (c + o2 * (2 : Int)) = e
          · rw [if_pos h3] at h
            exact absurd h (by simp)
          · rw [if_neg h3] at h
            exact ih _ acc2 h o ho2 hp hemp hnT
        · rw [if_neg h2] at h
          exact ih acc acc2 h o ho2 hp hemp hnT

theorem scanCenters_mono (b : Board) (e : HexCoord) (T : List HexCoord) :
    ∀ (cs acc acc2 : List HexCoord),
      scanCenters b e T cs acc = some acc2 → ∀ x ∈ acc, x ∈ acc2 := by
  intro cs
  induction cs with
  | nil =>
    intro acc acc2 h x hx
    simp only [scanCenters, Option.some.injEq] at h
    exact h ▸ hx
  | cons c cs ih =>
    intro acc acc2 h x hx
    simp only [scanCenters] at h
    cases hso : scanOffsets b e T c HexCoord.NEIGHBOR_OFFSETS acc with
    | none => rw [hso] at h; exact absurd h (by simp)
    | some acc3 =>
      rw [hso] at h
      exact ih acc3 acc2 h x (scanOffsets_mono b e T c _ acc acc3 hso x hx)

theorem scanCenters_new (b : Board) (e : HexCoord) (T : List HexCoord) :
    ∀ (cs acc acc2 : List HexCoord),
      scanCenters b e T cs acc = some acc2 →
      ∀ x ∈ acc2, x ∈ acc ∨
        (b.get x = some Spot.Empty ∧ x ∉ T ∧ x ≠ e) := by
  intro cs
  induction cs with
  | nil =>
    intro acc acc2 h x hx
    simp only [scanCenters, Option.some.injEq] at h
    exact Or.inl (h ▸ hx)
  | cons c cs ih =>
    intro acc acc2 h x hx
    simp only [scanCenters] at h
    cases hso : scanOffsets b e T c HexCoord.NEIGHBOR_OFFSETS acc with
    | none => rw [hso] at h; exact absurd h (by simp)
    | some acc3 =>
      rw [hso] at h
      rcases ih acc3 acc2 h x hx with h3 | hnew
      · exact scanOffsets_new b e T c _ acc acc3 hso x h3
      · exact Or.inr hnew

/-- If a whole BFS layer finishes without returning true, every valid jump
from every center of the layer either was already traversed or is in the
new layer, and none lands on the target. -/
theorem scanCenters_complete (b : Board) (e : HexCoord) (T : List HexCoord) :
    ∀ (cs acc acc2 : List HexCoord),
      scanCenters b e T cs acc = some acc2 →
      ∀ c ∈ cs, ∀ o ∈ HexCoord.NEIGHBOR_OFFSETS,
        isPlayerSpot (b.get (c + o)) = true →
        b.get (c + o * (2 : Int)) = some Spot.Empty →
        (c + o * (2 : Int)) ∉ T →
        (c + o * (2 : Int)) ≠ e ∧ (c + o * (2 : Int)) ∈ acc2 := by
  intro cs
  induction cs with
  | nil =>
    intro acc acc2 h c hc
    exact absurd hc (by simp)
  | cons c2 cs ih =>
    intro acc acc2 h c hc o ho hp hemp hnT
    simp only [scanCenters] at h
    cases hso : scanOffsets b e T c2 HexCoord.NEIGHBOR_OFFSETS acc with
    | none => rw [hso] at h; exact absurd h (by simp)
    | some acc3 =>
      rw [hso] at h
      rcases List.mem_cons.mp hc with rfl | hc2
      · obtain ⟨hne, hin⟩ :=
          scanOffsets_complete b e T c _ acc acc3 hso o ho hp hemp hnT
        exact ⟨hne, scanCenters_mono b e T cs acc3 acc2 h _ hin⟩
      · exact ih acc3 acc2 h c hc2 o ho hp hemp hnT

/-! ### BFS termination and soundness of a false result -/

/-- The BFS loop cannot run out of fuel: the traversed set grows, bounded
by the board's key set.  The measure is
`2*|keys \ traversed| - |frontier \ traversed|`, phrased additively. -/
theorem bfsLoop_ne_none (b : Board) (e : HexCoord) :
    ∀ (fuel : Nat) (T JC : List HexCoord),
      (∀ x ∈ JC, (b.get x).isSome = true) →
      2 * ((boardKeys b).toFinset \ T.toFinset).card + 1 ≤
        fuel + (JC.toFinset \ T.toFinset).card →
      bfsLoop b e fuel T JC ≠ none := by
  intro fuel
  induction fuel with
  | zero =>
    intro T JC hvalid hbound
    cases JC with
    | nil => simp [bfsLoop]
    | cons c cs =>
      exfalso
      have hsub : (c :: cs).toFinset \ T.toFinset ⊆
          (boardKeys b).toFinset \ T.toFinset := by
        intro x hx
        rcases Finset.mem_sdiff.mp hx with ⟨hx1, hx2⟩
        refine Finset.mem_sdiff.mpr ⟨?_, hx2⟩
        rw [List.mem_toFinset] at hx1 ⊢
        exact (isSome_lookupCell_iff b.board x).mp (hvalid x hx1)
      have hle := Finset.card_le_card hsub
      omega
  | succ f ih =>
    intro T JC hvalid hbound
    cases JC with
    | nil => simp [bfsLoop]
    | cons c cs =>
      rw [bfsLoop]
      cases hsc : scanCenters b e T (c :: cs) [] with
      | none => simp
      | some njs =>
        simp only []
        cases njs with
        | nil => simp [bfsLoop]
        | cons n ns =>
          have hnjs : ∀ x ∈ n :: ns,
              b.get x = some Spot.Empty ∧ x ∉ T ∧ x ≠ e := by
            intro x hx
            rcases scanCenters_new b e T (c :: cs) [] (n :: ns) hsc x hx with
              h0 | hok
            · exact absurd h0 (by simp)
            · exact hok
          apply ih
          · intro x hx
            rw [(hnjs x hx).1]
            rfl
          · have hsubJ : (c :: cs).toFinset \ T.toFinset ⊆
                (boardKeys b).toFinset \ T.toFinset := by
              intro x hx
              rcases Finset.mem_sdiff.mp hx with ⟨hx1, hx2⟩
              refine Finset.mem_sdiff.mpr ⟨?_, hx2⟩
              rw [List.mem_toFinset] at hx1 ⊢
              exact (isSome_lookupCell_iff b.board x).mp (hvalid x hx1)
            have happ : (T ++ c :: cs).toFinset =
                T.toFinset ∪ (c :: cs).toFinset := by
              simp [List.toFinset_append]
            rw [happ]
            have hsd : (boardKeys b).toFinset \
                (T.toFinset ∪ (c :: cs).toFinset) =
                ((boardKeys b).toFinset \ T.toFinset) \
                  ((c :: cs).toFinset \ T.toFinset) := by
              ext x
              simp only [Finset.mem_sdiff, Finset.mem_union]
              tauto
            have hcard := Finset.card_sdiff_add_card_eq_card hsubJ
            have hone : 1 ≤ ((c :: cs).toFinset \ T.toFinset).card +
                ((n :: ns).toFinset \
                  (T.toFinset ∪ (c :: cs).toFinset)).card := by
              by_contra hno
              push_neg at hno
              have hB0 : ((c :: cs).toFinset \ T.toFinset).card = 0 := by
                omega
              have hB20 : ((n :: ns).toFinset \
                  (T.toFinset ∪ (c :: cs).toFinset)).card = 0 := by
                omega
              have hJsub : (c :: cs).toFinset ⊆ T.toFinset :=
                Finset.sdiff_eq_empty_iff_subset.mp
                  (Finset.card_eq_zero.mp hB0)
              have hNsub : (n :: ns).toFinset ⊆
                  T.toFinset ∪ (c :: cs).toFinset :=
                Finset.sdiff_eq_empty_iff_subset.mp
                  (Finset.card_eq_zero.mp hB20)
              have hnT : n ∉ T := ((hnjs n (by simp)).2).1
              have hnmem : n ∈ T.toFinset ∪ (c :: cs).toFinset :=
                hNsub (by simp)
              rcases Finset.mem_union.mp hnmem with hmem | hmem
              · exact hnT (List.mem_toFinset.mp hmem)
              · exact hnT (List.mem_toFinset.mp (hJsub hmem))
            rw [hsd]
            omega

/-- If the BFS loop exhausts its frontier and returns false, there is a
jump-closed set of cells containing the traversed set and the frontier but
not the target. -/
theorem bfsLoop_false_closed (b : Board) (e : HexCoord) :
    ∀ (fuel : Nat) (T JC : List HexCoord),
      bfsLoop b e fuel T JC = some false →
      (∀ t ∈ T, ∀ j, stepJump b t j → j ∈ T ∨ j ∈ JC) →
      e ∉ T → e ∉ JC →
      ∃ S : HexCoord → Prop, (∀ x ∈ T, S x) ∧ (∀ x ∈ JC, S x) ∧
        (∀ t j, S t → stepJump b t j → S j) ∧ ¬ S e := by
  intro fuel
  induction fuel with
  | zero =>
    intro T JC h hInv heT heJ
    cases JC with
    | nil =>
      refine ⟨fun x => x ∈ T, fun x hx => hx, by simp, ?_, heT⟩
      intro t j ht hstep
      rcases hInv t ht j hstep with h1 | h1
      · exact h1
      · exact absurd h1 (by simp)
    | cons c cs =>
      rw [bfsLoop] at h
      exact absurd h (by simp)
  | succ f ih =>
    intro T JC h hInv heT heJ
    cases JC with
    | nil =>
      refine ⟨fun x => x ∈ T, fun x hx => hx, by simp, ?_, heT⟩
      intro t j ht hstep
      rcases hInv t ht j hstep with h1 | h1
      · exact h1
      · exact absurd h1 (by simp)
    | cons c cs =>
      rw [bfsLoop] at h
      cases hsc : scanCenters b e T (c :: cs) [] with
      | none => rw [hsc] at h; exact absurd h (by simp)
      | some njs =>
        rw [hsc] at h
        have hInv2 : ∀ t ∈ T ++ c :: cs, ∀ j, stepJump b t j →
            j ∈ T ++ c :: cs ∨ j ∈ njs := by
          intro t ht j hstep
          rcases List.mem_append.mp ht with ht2 | ht2
          · rcases hInv t ht2 j hstep with h1 | h1
            · exact Or.inl (List.mem_append_left _ h1)
            · exact Or.inl (List.mem_append_right _ h1)
          · by_cases hjT : j ∈ T
            · exact Or.inl (List.mem_append_left _ hjT)
            · obtain ⟨o, ho, rfl, ⟨p, hp⟩, hemp⟩ := hstep
              have hps : isPlayerSpot (b.get (t + o)) = true := by
                rw [hp]; rfl
              obtain ⟨hne, hin⟩ := scanCenters_complete b e T (c :: cs) []
                njs hsc t ht2 o ho hps hemp hjT
              exact Or.inr hin
        have heT2 : e ∉ T ++ c :: cs := by
          intro hmem
          rcases List.mem_append.mp hmem with h1 | h1
          · exact heT h1
          · exact heJ h1
        have heN : e ∉ njs := by
          intro hmem
          rcases scanCenters_new b e T (c :: cs) [] njs hsc e hmem with
            h1 | ⟨_, _, hne⟩
          · exact absurd h1 (by simp)
          · exact hne rfl
        obtain ⟨S, hS1, hS2, hS3, hS4⟩ :=
          ih (T ++ c :: cs) njs h hInv2 heT2 heN
        exact ⟨S, fun x hx => hS1 x (List.mem_append_left _ hx),
          fun x hx => hS1 x (List.mem_append_right _ hx), hS3, hS4⟩

/-- A jump-closed set absorbs every chain of jumps launched inside it. -/
theorem closed_reach (b : Board) (S : HexCoord → Prop)
    (hclosed : ∀ t j, S t → stepJump b t j → S j) :
    ∀ x y, Relation.TransGen (stepJump b) x y → S x → S y := by
  intro x y h
  induction h with
  | single h1 => exact fun hx => hclosed _ _ hx h1
  | tail _ h2 ih => exact fun hx => hclosed _ _ (ih hx) h2

/-! ### Claim theorems -/

/-- C1: for every board state and every occupied `start` / empty `end` on
the board, if `end` is reachable from `start` by a chain of one or more
jumps — each jump going from a jump center `c` in some direction `d` to the
landing cell `c + 2d`, where `c + d` is occupied by any side and `c + 2d`
is empty — then `validate_move(start, end)` returns true; moreover the
breadth-first search over jump centers, seeded with `{start}` and tracking
visited jump centers, terminates for every on-board start (it never
exhausts the fuel `validate_move` gives it, returning true the instant
`end` is reached and false once the frontier is exhausted). -/
theorem claim_C1_jump_chain_complete (b : Board) (s e : HexCoord)
    (p : Player)
    (hs : b.get s = some (Spot.Player p)) (he : b.get e = some Spot.Empty)
    (hreach : Relation.TransGen (stepJump b) s e) :
    b.validate_move s e = true ∧
    ∀ s2 e2 : HexCoord, (b.get s2).isSome = true →
      bfsLoop b e2 (2 * b.board.length) [] [s2] ≠ none := by
  have hterm : ∀ s2 e2 : HexCoord, (b.get s2).isSome = true →
      bfsLoop b e2 (2 * b.board.length) [] [s2] ≠ none := by
    intro s2 e2 hv2
    apply bfsLoop_ne_none
    · intro x hx
      have hxs : x = s2 := by simpa using hx
      exact hxs ▸ hv2
    · have h1 : ([] : List HexCoord).toFinset = ∅ := rfl
      rw [h1]
      simp only [Finset.sdiff_empty]
      have hUle : (boardKeys b).toFinset.card ≤ b.board.length := by
        calc (boardKeys b).toFinset.card ≤ (boardKeys b).length :=
              List.toFinset_card_le _
          _ = b.board.length := by simp [boardKeys]
      have hs2 : ([s2] : List HexCoord).toFinset.card = 1 := by simp
      omega
  refine ⟨?_, hterm⟩
  have hne : s ≠ e := by
    intro hh
    rw [hh, he] at hs
    exact absurd hs (by simp)
  unfold Board.validate_move
  rw [hs, he]
  show (if ((Spot.Player p).is_empty || Spot.Empty.is_full) = true then false
    else if e ∈ s.neighbors then true
    else (bfsLoop b e (2 * b.board.length) [] [s]).getD false) = true
  have hguard : ((Spot.Player p).is_empty || Spot.Empty.is_full) = false := rfl
  rw [hguard]
  by_cases hnb : e ∈ s.neighbors
  · simp [hnb]
  · simp only [Bool.false_eq_true, if_false, hnb, if_neg]
    have hvs : (b.get s).isSome = true := by rw [hs]; rfl
    cases hres : bfsLoop b e (2 * b.board.length) [] [s] with
    | none => exact absurd hres (hterm s e hvs)
    | some v =>
      cases v with
      | false =>
        exfalso
        obtain ⟨S, hS1, hS2, hS3, hS4⟩ := bfsLoop_false_closed b e
          (2 * b.board.length) [] [s] hres
          (fun t ht => absurd ht (by simp))
          (by simp)
          (by
            intro hmem
            have hes : e = s := by simpa using hmem
            exact hne hes.symm)
        exact hS4 (closed_reach b S hS3 s e hreach (hS2 s (by simp)))
      | true => rfl

/-- Witness for C1: on a fresh two-player board, `(4,-6)` (occupied by `A`)
jumps over the occupied `(4,-5)` to the empty `(4,-4)` in direction
`(0,1)`; the single-jump chain makes the move legal. -/
theorem claim_C1_witness :
    (Board.new 2).validate_move ⟨4, -6⟩ ⟨4, -4⟩ = true :=
  (claim_C1_jump_chain_complete (Board.new 2) ⟨4, -6⟩ ⟨4, -4⟩ SideOfStar.A
    (by decide) (by decide)
    (Relation.TransGen.single
      ⟨⟨0, 1⟩, by decide, by decide, ⟨SideOfStar.A, by decide⟩,
        by decide⟩)).1

/-- C2: `make_move(start, end)` returns false whenever `start` is absent
from the board, `end` is absent from the board, `start` is `Empty`, or
`end` is not `Empty` — regardless of any geometric relationship between
`start` and `end`. -/
theorem claim_C2_illegal_inputs_rejected (b : Board) (s e : HexCoord)
    (h : b.get s = none ∨ b.get e = none ∨ b.get s = some Spot.Empty ∨
      ∃ p, b.get e = some (Spot.Player p)) :
    (b.make_move s e).2 = false := by
  have hv : b.validate_move s e = false := by
    unfold Board.validate_move
    rcases h with h | h | h | ⟨p, h⟩
    · simp [h]
    · cases hg : b.get s <;> simp [h]
    · cases hg : b.get e <;> simp [h, Spot.is_empty]
    · cases hg : b.get s <;> simp [h, Spot.is_full, Spot.is_empty]
  simp [Board.make_move, hv]

/-- Witness for C2: on a fresh two-player board the origin `(0,0)` is empty,
so moving from it is rejected. -/
theorem claim_C2_witness :
    ((Board.new 2).make_move ⟨0, 0⟩ ⟨0, 1⟩).2 = false :=
  claim_C2_illegal_inputs_rejected (Board.new 2) ⟨0, 0⟩ ⟨0, 1⟩
    (Or.inr (Or.inr (Or.inl (by decide))))

/-- A move accepted by the validator starts at an occupied cell and ends at
an empty one (inversion of the guard at the top of `validate_move`). -/
theorem validate_move_true_inv (b : Board) (s e : HexCoord)
    (h : b.validate_move s e = true) :
    ∃ p, b.get s = some (Spot.Player p) ∧ b.get e = some Spot.Empty := by
  unfold Board.validate_move at h
  cases hs : b.get s with
  | none => rw [hs] at h; simp at h
  | some ss =>
    cases he : b.get e with
    | none => rw [hs, he] at h; simp at h
    | some es =>
      rw [hs, he] at h
      cases ss with
      | Empty => simp [Spot.is_empty] at h
      | Player p =>
        cases es with
        | Empty => exact ⟨p, rfl, rfl⟩
        | Player q => simp [Spot.is_empty, Spot.is_full] at h

/-- Effect of `Board::swap` on an occupied/empty pair of cells. -/
theorem swap_spec (b : Board) (s e : HexCoord) (p : Player)
    (hs : b.get s = some (Spot.Player p)) (he : b.get e = some Spot.Empty) :
    (b.swap s e).get s = some Spot.Empty ∧
    (b.swap s e).get e = some (Spot.Player p) ∧
    (∀ c, c ≠ s → c ≠ e → (b.swap s e).get c = b.get c) ∧
    (b.swap s e).players = b.players ∧ (b.swap s e).turn = b.turn := by
  have hne : s ≠ e := by
    intro hh
    rw [hh, he] at hs
    exact absurd hs (by simp)
  have hb : b.swap s e =
      { b with board :=
          updateCell (updateCell b.board s Spot.Empty) e (Spot.Player p) } := by
    unfold Board.swap
    rw [hs, he]
    simp [Board.is_valid, hs, he]
  refine ⟨?_, ?_, ?_, ?_, ?_⟩
  · rw [hb]
    show lookupCell (updateCell (updateCell b.board s Spot.Empty) e
      (Spot.Player p)) s = some Spot.Empty
    rw [lookup_updateCell_ne _ _ _ _ hne, lookup_updateCell_self]
    have : lookupCell b.board s = some (Spot.Player p) := hs
    rw [this]
    rfl
  · rw [hb]
    show lookupCell (updateCell (updateCell b.board s Spot.Empty) e
      (Spot.Player p)) e = some (Spot.Player p)
    rw [lookup_updateCell_self, lookup_updateCell_ne _ _ _ _ (Ne.symm hne)]
    have : lookupCell b.board e = some Spot.Empty := he
    rw [this]
    rfl
  · intro c hcs hce
    rw [hb]
    show lookupCell (updateCell (updateCell b.board s Spot.Empty) e
      (Spot.Player p)) c = b.get c
    rw [lookup_updateCell_ne _ _ _ _ hce, lookup_updateCell_ne _ _ _ _ hcs]
    rfl
  · rw [hb]
  · rw [hb]

/-- C3: `make_move` is atomic.  When the move is legal it swaps the two
cells — afterward `start` is `Empty` and `end` is `Occupied` by the moving
side, every other cell and the rest of the state is untouched — and returns
true; when the move is illegal it returns false and the entire board state
is unchanged.  In particular an occupied start with an empty on-board
neighbor end is always a legal move. -/
theorem claim_C3_make_move_atomic (b : Board) (s e : HexCoord) :
    ((b.make_move s e).2 = true →
      ∃ p, b.get s = some (Spot.Player p) ∧ b.get e = some Spot.Empty ∧
        (b.make_move s e).1.get s = some Spot.Empty ∧
        (b.make_move s e).1.get e = some (Spot.Player p) ∧
        (∀ c, c ≠ s → c ≠ e → (b.make_move s e).1.get c = b.get c) ∧
        (b.make_move s e).1.players = b.players ∧
        (b.make_move s e).1.turn = b.turn) ∧
    ((b.make_move s e).2 = false → (b.make_move s e).1 = b) ∧
    (∀ p, b.get s = some (Spot.Player p) → b.get e = some Spot.Empty →
      e ∈ s.neighbors → (b.make_move s e).2 = true) := by
  refine ⟨?_, ?_, ?_⟩
  · intro h
    have hv : b.validate_move s e = true := by
      simpa [Board.make_move] using h
    obtain ⟨p, hs, he⟩ := validate_move_true_inv b s e hv
    have hm : (b.make_move s e).1 = b.swap s e := by
      simp [Board.make_move, hv]
    obtain ⟨h1, h2, h3, h4, h5⟩ := swap_spec b s e p hs he
    exact ⟨p, hs, he, by rw [hm]; exact h1, by rw [hm]; exact h2,
      fun c hc1 hc2 => by rw [hm]; exact h3 c hc1 hc2,
      by rw [hm]; exact h4, by rw [hm]; exact h5⟩
  · intro h
    have hv : b.validate_move s e = false := by
      simpa [Board.make_move] using h
    simp [Board.make_move, hv]
  · intro p hs he hnb
    simp [Board.make_move, Board.validate_move, hs, he, Spot.is_empty,
      Spot.is_full, hnb]

/-- Witness for C3: on a fresh two-player board, `(4,-5)` holds an `A`
piece, its neighbor `(4,-4)` is empty, and the move succeeds and vacates
the origin. -/
theorem claim_C3_witness :
    (((Board.new 2).make_move ⟨4, -5⟩ ⟨4, -4⟩).1.get ⟨4, -5⟩
        = some Spot.Empty) ∧
    ((Board.new 2).make_move ⟨4, -5⟩ ⟨4, -4⟩).2 = true := by
  have h := claim_C3_make_move_atomic (Board.new 2) ⟨4, -5⟩ ⟨4, -4⟩
  have h2 := h.2.2 SideOfStar.A (by decide) (by decide) (by decide)
  obtain ⟨p, hp1, hp2, hp3, hrest⟩ := h.1 h2
  exact ⟨hp3, h2⟩

/-- C7: the key set of `cells` is an invariant: no operation (`put`,
`clear`, `exchange`, `setup`, `makeMove`, `advanceTurn`) ever adds or
removes a coordinate; writes targeting a coordinate outside the cell set
are silent no-ops that leave the whole board unchanged, and `get` on such a
coordinate returns absent. -/
theorem claim_C7_key_set_invariant (b : Board) (c c1 c2 s e : HexCoord)
    (p : Player) :
    boardKeys (b.put_player c p) = boardKeys b ∧
    boardKeys (b.remove_player c) = boardKeys b ∧
    boardKeys (b.swap c1 c2) = boardKeys b ∧
    boardKeys (b.setup_players) = boardKeys b ∧
    boardKeys (b.make_move s e).1 = boardKeys b ∧
    boardKeys (b.start_next_turn) = boardKeys b ∧
    (b.is_valid c = false → b.put_player c p = b) ∧
    (b.is_valid c = false → b.remove_player c = b) ∧
    (b.is_valid c1 = false ∨ b.is_valid c2 = false → b.swap c1 c2 = b) ∧
    (b.is_valid c = false ↔ b.get c = none) := by
  refine ⟨keys_put_player b c p, keys_remove_player b c, keys_swap b c1 c2,
    keys_setup_players b, keys_make_move b s e, rfl, ?_, ?_, ?_, ?_⟩
  · intro h
    simp [Board.put_player, h]
  · intro h
    simp [Board.remove_player, h]
  · intro h
    rcases h with h | h <;> simp [Board.swap, h]
  · unfold Board.is_valid
    cases b.get c <;> simp

/-- Witness for C7: the no-op branches fire at the off-board coordinate
`(100, 100)` of a fresh two-player board. -/
theorem claim_C7_witness :
    (Board.new 2).put_player ⟨100, 100⟩ SideOfStar.A = Board.new 2 ∧
    (Board.new 2).swap ⟨100, 100⟩ ⟨0, 0⟩ = Board.new 2 ∧
    (Board.new 2).get ⟨100, 100⟩ = none := by
  have h := claim_C7_key_set_invariant (Board.new 2) ⟨100, 100⟩ ⟨100, 100⟩
    ⟨0, 0⟩ ⟨0, 0⟩ ⟨0, 0⟩ SideOfStar.A
  have hv : (Board.new 2).is_valid ⟨100, 100⟩ = false := by decide
  exact ⟨h.2.2.2.2.2.2.1 hv, h.2.2.2.2.2.2.2.2.1 (Or.inl hv),
    (h.2.2.2.2.2.2.2.2.2).mp hv⟩

theorem forwardN_shift (i : Nat) (t : SideOfStar) :
    forwardN i t.forward = forwardN (i + 1) t := rfl

/-- Six forward steps from any side visit every side. -/
theorem forward_covers (t s : SideOfStar) :
    s = forwardN 1 t ∨ s = forwardN 2 t ∨ s = forwardN 3 t ∨
    s = forwardN 4 t ∨ s = forwardN 5 t ∨ s = forwardN 6 t := by
  revert t s
  decide

/-- The fueled `while` loop of `start_next_turn` either stops at the first
forward iterate that is an active side, or exhausts its fuel with no
iterate active. -/
theorem nextActiveSide_spec (players : List Player) :
    ∀ (fuel : Nat) (s : SideOfStar),
      (∃ i, i < fuel ∧ forwardN i s ∈ players ∧
        (∀ j, j < i → forwardN j s ∉ players) ∧
        nextActiveSide players fuel s = forwardN i s) ∨
      ((∀ i, i < fuel → forwardN i s ∉ players) ∧
        nextActiveSide players fuel s = forwardN fuel s) := by
  intro fuel
  induction fuel with
  | zero =>
    intro s
    right
    exact ⟨fun i hi => absurd hi (by omega), rfl⟩
  | succ f ih =>
    intro s
    by_cases hs : s ∈ players
    · left
      exact ⟨0, by omega, hs, fun j hj => absurd hj (by omega),
        by simp [nextActiveSide, hs, forwardN]⟩
    · rcases ih s.forward with ⟨i, hi, hmem, hmin, heq⟩ | ⟨hall, heq⟩
      · left
        refine ⟨i + 1, by omega, ?_, ?_, ?_⟩
        · rw [← forwardN_shift]; exact hmem
        · intro j hj
          cases j with
          | zero => exact hs
          | succ j2 =>
            rw [← forwardN_shift]
            exact hmin j2 (by omega)
        · rw [← forwardN_shift]
          simpa [nextActiveSide, hs] using heq
      · right
        refine ⟨?_, ?_⟩
        · intro i hi
          cases i with
          | zero => exact hs
          | succ i2 =>
            rw [← forwardN_shift]
            exact hall i2 (by omega)
        · rw [← forwardN_shift]
          simpa [nextActiveSide, hs] using heq

/-- C6: under the precondition that `activeSides` is non-empty,
`advanceTurn()` terminates within at most 6 applications of `forward`
starting from the current turn, assigning the first side in forward
(clockwise) order that is a member of `activeSides`; in particular with
`activeSides = {A, D}` and `turn = A`, one call yields `D` and a second
call yields `A` again. -/
theorem claim_C6_advance_turn (b : Board) (h : b.players ≠ []) :
    (∃ k, 1 ≤ k ∧ k ≤ 6 ∧
      (b.start_next_turn).turn = forwardN k b.turn ∧
      forwardN k b.turn ∈ b.players ∧
      (∀ j, 1 ≤ j → j < k → forwardN j b.turn ∉ b.players)) ∧
    (Board.mk gen_board [SideOfStar.A, SideOfStar.D]
      SideOfStar.A).start_next_turn.turn = SideOfStar.D ∧
    ((Board.mk gen_board [SideOfStar.A, SideOfStar.D]
      SideOfStar.A).start_next_turn.start_next_turn).turn = SideOfStar.A := by
  refine ⟨?_, by decide, by decide⟩
  have hturn : (b.start_next_turn).turn =
      nextActiveSide b.players 6 b.turn.forward := rfl
  rcases nextActiveSide_spec b.players 6 b.turn.forward with
    ⟨i, hi, hmem, hmin, heq⟩ | ⟨hall, heq⟩
  · refine ⟨i + 1, by omega, by omega, ?_, ?_, ?_⟩
    · rw [hturn, heq, forwardN_shift]
    · rw [← forwardN_shift]; exact hmem
    · intro j hj1 hj2
      cases j with
      | zero => exact absurd hj1 (by omega)
      | succ j2 =>
        rw [← forwardN_shift]
        exact hmin j2 (by omega)
  · exfalso
    obtain ⟨s0, hs0⟩ := List.exists_mem_of_ne_nil b.players h
    rcases forward_covers b.turn s0 with hc | hc | hc | hc | hc | hc
    · exact hall 0 (by omega) (by rw [forwardN_shift]; exact hc ▸ hs0)
    · exact hall 1 (by omega) (by rw [forwardN_shift]; exact hc ▸ hs0)
    · exact hall 2 (by omega) (by rw [forwardN_shift]; exact hc ▸ hs0)
    · exact hall 3 (by omega) (by rw [forwardN_shift]; exact hc ▸ hs0)
    · exact hall 4 (by omega) (by rw [forwardN_shift]; exact hc ▸ hs0)
    · exact hall 5 (by omega) (by rw [forwardN_shift]; exact hc ▸ hs0)

/-- Witness for C6: the two-player cycle `A → D → A`. -/
theorem claim_C6_witness :
    (Board.mk gen_board [SideOfStar.A, SideOfStar.D]
      SideOfStar.A).start_next_turn.turn = SideOfStar.D :=
  (claim_C6_advance_turn
    (Board.mk gen_board [SideOfStar.A, SideOfStar.D] SideOfStar.A)
    (by decide)).2.1

theorem turn_setup_players (b : Board) :
    (b.setup_players).turn = (minSide b.players).getD b.turn := by
  unfold Board.setup_players
  simp only [SideOfStar.all, List.foldl]
  simp only [players_write_tip, turn_write_tip]

/-- C8: `create(playerCount)` resolves the active-side set canonically — 2
gives `{A, D}`, 3 gives `{A, C, E}`, 4 gives `{A, B, D, E}`, 6 gives all
six, any other value silently falls back to the 2-player set — and
afterwards `activeSides` has size `playerCount` (or 2 if invalid) and
`turn` is a member of `activeSides`. -/
theorem claim_C8_player_configuration (n : Nat) :
    (Board.new n).players = gen_players n ∧
    (n = 2 → gen_players n = [SideOfStar.A, SideOfStar.D]) ∧
    (n = 3 → gen_players n = [SideOfStar.A, SideOfStar.C, SideOfStar.E]) ∧
    (n = 4 → gen_players n =
      [SideOfStar.A, SideOfStar.B, SideOfStar.D, SideOfStar.E]) ∧
    (n = 6 → gen_players n = SideOfStar.all) ∧
    (¬(n = 2 ∨ n = 3 ∨ n = 4 ∨ n = 6) →
      gen_players n = [SideOfStar.A, SideOfStar.D]) ∧
    (gen_players n).length = (if n = 2 ∨ n = 3 ∨ n = 4 ∨ n = 6 then n else 2) ∧
    (Board.new n).turn ∈ (Board.new n).players := by
  have hplayers : (Board.new n).players = gen_players n := by
    unfold Board.new
    rw [players_setup_players]
  have hturn : (Board.new n).turn = (minSide (gen_players n)).getD
      SideOfStar.A := by
    unfold Board.new
    rw [turn_setup_players]
  have hfallback : ¬(n = 2 ∨ n = 3 ∨ n = 4 ∨ n = 6) →
      gen_players n = [SideOfStar.A, SideOfStar.D] := by
    intro h
    simp [gen_players, h]
  refine ⟨hplayers, ?_, ?_, ?_, ?_, hfallback, ?_, ?_⟩
  · intro h; subst h; rfl
  · intro h; subst h; rfl
  · intro h; subst h; rfl
  · intro h; subst h; rfl
  · by_cases h : n = 2 ∨ n = 3 ∨ n = 4 ∨ n = 6
    · rcases h with h | h | h | h <;> subst h <;> simp [gen_players,
        SideOfStar.all]
    · rw [hfallback h]
      simp [h]
  · rw [hplayers, hturn]
    by_cases h : n = 2 ∨ n = 3 ∨ n = 4 ∨ n = 6
    · rcases h with h | h | h | h <;> subst h <;> decide
    · rw [hfallback h]
      decide

/-- Witness for C8: an invalid player count (5) falls back to the 2-player
configuration. -/
theorem claim_C8_witness :
    gen_players 5 = [SideOfStar.A, SideOfStar.D] ∧
    (Board.new 5).turn ∈ (Board.new 5).players :=
  ⟨(claim_C8_player_configuration 5).2.2.2.2.2.1 (by omega),
    (claim_C8_player_configuration 5).2.2.2.2.2.2.2⟩

theorem map_fst_pair (L : List HexCoord) :
    (L.map (fun c => (c, Spot.Empty))).map Prod.fst = L := by
  induction L with
  | nil => rfl
  | cons a l ih => simp [ih]

theorem length_flatMapList (f : Nat → List HexCoord) (l : List Nat) :
    (l.flatMap f).length = (l.map (fun a => (f a).length)).sum := by
  induction l with
  | nil => rfl
  | cons a l ih => simp [List.flatMap_cons, ih]

theorem row_length (g : Nat → HexCoord) (n o : Nat) (h : o + 1 ≤ n) :
    (((List.range n).take (o + 1)).map g).length = o + 1 := by
  rw [List.length_map, List.length_take, List.length_range]
  omega

theorem sum_range_add_one (n : Nat) :
    (((List.range n).map (fun o => o + 1)).sum) * 2 = n * (n + 1) := by
  induction n with
  | zero => rfl
  | succ m ih =>
    rw [List.range_succ, List.map_append, List.sum_append]
    simp only [List.map_cons, List.map_nil, List.sum_cons, List.sum_nil]
    nlinarith [ih]

/-- A tip-up triangle of size `n` has `n*(n+1)/2` cells: its rows widen by
one cell each, from 1 at the tip to `n`. -/
theorem triangle_tip_up_length (c : HexCoord) (n : Nat) :
    (HexCoord.triangle_tip_up c (n : Int)).length = n * (n + 1) / 2 := by
  have h2 : (HexCoord.triangle_tip_up c (n : Int)).length * 2 = n * (n + 1) := by
    unfold HexCoord.triangle_tip_up
    rw [show ((n : Int)).toNat = n by simp, length_flatMapList]
    have hcong : (List.range n).map (fun o =>
        (((List.range n).take (o + 1)).map (fun j =>
          HexCoord.mk (c.horz - Int.ofNat j) (c.slant + Int.ofNat o))).length) =
        (List.range n).map (fun o => o + 1) := by
      apply List.map_congr_left
      intro o ho
      have hon : o + 1 ≤ n := by
        have := List.mem_range.mp ho
        omega
      exact row_length _ n o hon
    rw [hcong, sum_range_add_one]
  omega

/-- A tip-down triangle of size `n` likewise has `n*(n+1)/2` cells. -/
theorem triangle_tip_down_length (c : HexCoord) (n : Nat) :
    (HexCoord.triangle_tip_down c (n : Int)).length = n * (n + 1) / 2 := by
  have h2 : (HexCoord.triangle_tip_down c (n : Int)).length * 2 = n * (n + 1) := by
    unfold HexCoord.triangle_tip_down
    rw [show ((n : Int)).toNat = n by simp, length_flatMapList]
    have hcong : (List.range n).map (fun o =>
        (((List.range n).take (o + 1)).map (fun j =>
          HexCoord.mk (c.horz + Int.ofNat j) (c.slant - Int.ofNat o))).length) =
        (List.range n).map (fun o => o + 1) := by
      apply List.map_congr_left
      intro o ho
      have hon : o + 1 ≤ n := by
        have := List.mem_range.mp ho
        omega
      exact row_length _ n o hon
    rw [hcong, sum_range_add_one]
  omega

/-- C4: for every player count, including invalid ones, the cell key set of
`create(playerCount)` holds exactly 121 distinct coordinates, identical
across calls: the union of the 91-cell size-13 tip-up triangle rooted at
`(4,-8)` and the three pairwise-disjoint 10-cell size-4 tip-down triangles
rooted at `(-4,-1)`, `(5,-1)` and `(-4,8)`; a triangle of size `n` holds
`n*(n+1)/2` coordinates, widening by one cell per row from its root
vertex. -/
theorem claim_C4_board_footprint (n : Nat) :
    boardKeys (Board.new n) =
      HexCoord.triangle_tip_up ⟨4, -8⟩ 13
        ++ HexCoord.triangle_tip_down ⟨-4, -1⟩ 4
        ++ HexCoord.triangle_tip_down ⟨5, -1⟩ 4
        ++ HexCoord.triangle_tip_down ⟨-4, 8⟩ 4 ∧
    (boardKeys (Board.new n)).Nodup ∧
    (boardKeys (Board.new n)).length = 121 ∧
    (HexCoord.triangle_tip_up ⟨4, -8⟩ 13).length = 91 ∧
    (HexCoord.triangle_tip_down ⟨-4, -1⟩ 4).length = 10 ∧
    (HexCoord.triangle_tip_down ⟨5, -1⟩ 4).length = 10 ∧
    (HexCoord.triangle_tip_down ⟨-4, 8⟩ 4).length = 10 ∧
    (∀ c ∈ HexCoord.triangle_tip_down ⟨-4, -1⟩ 4,
      c ∉ HexCoord.triangle_tip_down ⟨5, -1⟩ 4) ∧
    (∀ c ∈ HexCoord.triangle_tip_down ⟨-4, -1⟩ 4,
      c ∉ HexCoord.triangle_tip_down ⟨-4, 8⟩ 4) ∧
    (∀ c ∈ HexCoord.triangle_tip_down ⟨5, -1⟩ 4,
      c ∉ HexCoord.triangle_tip_down ⟨-4, 8⟩ 4) ∧
    (∀ (c : HexCoord) (m : Nat),
      (HexCoord.triangle_tip_up c (m : Int)).length = m * (m + 1) / 2 ∧
      (HexCoord.triangle_tip_down c (m : Int)).length = m * (m + 1) / 2) := by
  have hkeys : boardKeys (Board.new n) =
      HexCoord.triangle_tip_up ⟨4, -8⟩ 13
        ++ HexCoord.triangle_tip_down ⟨-4, -1⟩ 4
        ++ HexCoord.triangle_tip_down ⟨5, -1⟩ 4
        ++ HexCoord.triangle_tip_down ⟨-4, 8⟩ 4 := by
    unfold Board.new
    rw [keys_setup_players]
    unfold boardKeys gen_board
    rw [map_fst_pair]
  rw [hkeys]
  exact ⟨rfl, by decide, by decide, by decide, by decide, by decide,
    by decide, by decide, by decide, by decide,
    fun c m => ⟨triangle_tip_up_length c m, triangle_tip_down_length c m⟩⟩

/-- C5: `setup()` is idempotent — for any board state, running setup twice
with an unchanged `activeSides` yields the same cells map as running it
once — and after setup, `turn` is the active side with the lowest ordinal,
a property of the membership of `activeSides` alone and hence independent
of the order in which sides were toggled in. -/
theorem claim_C5_setup_idempotent (b : Board) :
    (∀ k, (b.setup_players.setup_players).get k = (b.setup_players).get k) ∧
    (b.players ≠ [] → (b.setup_players).turn ∈ b.players ∧
      ∀ q ∈ b.players, (b.setup_players).turn.sideIdx ≤ q.sideIdx) := by
  constructor
  · intro k
    have hpl := players_setup_players b
    have hpres := isSome_get_setup_players b k
    rw [get_setup_players (b.setup_players) k, hpl, hpres,
      get_setup_players b k]
    by_cases h1 : k ∈ player_tip SideOfStar.F ∧ (b.get k).isSome = true
    · simp [h1]
    rw [if_neg h1, if_neg h1]
    by_cases h2 : k ∈ player_tip SideOfStar.E ∧ (b.get k).isSome = true
    · simp [h2]
    rw [if_neg h2, if_neg h2]
    by_cases h3 : k ∈ player_tip SideOfStar.D ∧ (b.get k).isSome = true
    · simp [h3]
    rw [if_neg h3, if_neg h3]
    by_cases h4 : k ∈ player_tip SideOfStar.C ∧ (b.get k).isSome = true
    · simp [h4]
    rw [if_neg h4, if_neg h4]
    by_cases h5 : k ∈ player_tip SideOfStar.B ∧ (b.get k).isSome = true
    · simp [h5]
    rw [if_neg h5, if_neg h5]
    by_cases h6 : k ∈ player_tip SideOfStar.A ∧ (b.get k).isSome = true
    · simp [h6]
    rw [if_neg h6, if_neg h6]
  · intro hne
    have ht := turn_setup_players b
    obtain ⟨m, hm, hmem, hmin⟩ := minSide_spec b.players hne
    rw [ht, hm]
    exact ⟨hmem, hmin⟩

/-- Witness for C5: double setup agrees with single setup at `(0,0)` on a
fresh two-player board, whose starting turn is an active side. -/
theorem claim_C5_witness :
    ((Board.new 2).setup_players.setup_players).get ⟨0, 0⟩ =
      ((Board.new 2).setup_players).get ⟨0, 0⟩ ∧
    ((Board.new 2).setup_players).turn ∈ (Board.new 2).players := by
  have h := claim_C5_setup_idempotent (Board.new 2)
  exact ⟨h.1 ⟨0, 0⟩, (h.2 (by decide)).1⟩

/-- Any cell of side `q`'s starting tip holds exactly `setupSpot` after a
setup (used to discharge the post-setup precondition of the C9 theorem). -/
theorem get_setup_players_tip (b : Board) (q : SideOfStar) (c : HexCoord)
    (hc : c ∈ player_tip q)
    (hpres : (b.get c).isSome = true) :
    (b.setup_players).get c = some (setupSpot b.players q) := by
  rw [get_setup_players]
  by_cases h1 : c ∈ player_tip SideOfStar.F ∧ (b.get c).isSome = true
  · rw [if_pos h1]
    have : q = SideOfStar.F := by
      by_contra hne
      exact tips_disjoint q SideOfStar.F hne c hc h1.1
    rw [this]
  · rw [if_neg h1]
    by_cases h2 : c ∈ player_tip SideOfStar.E ∧ (b.get c).isSome = true
    · rw [if_pos h2]
      have : q = SideOfStar.E := by
        by_contra hne
        exact tips_disjoint q SideOfStar.E hne c hc h2.1
      rw [this]
    · rw [if_neg h2]
      by_cases h3 : c ∈ player_tip SideOfStar.D ∧ (b.get c).isSome = true
      · rw [if_pos h3]
        have : q = SideOfStar.D := by
          by_contra hne
          exact tips_disjoint q SideOfStar.D hne c hc h3.1
        rw [this]
      · rw [if_neg h3]
        by_cases h4 : c ∈ player_tip SideOfStar.C ∧ (b.get c).isSome = true
        · rw [if_pos h4]
          have : q = SideOfStar.C := by
            by_contra hne
            exact tips_disjoint q SideOfStar.C hne c hc h4.1
          rw [this]
        · rw [if_neg h4]
          by_cases h5 : c ∈ player_tip SideOfStar.B ∧ (b.get c).isSome = true
          · rw [if_pos h5]
            have : q = SideOfStar.B := by
              by_contra hne
              exact tips_disjoint q SideOfStar.B hne c hc h5.1
            rw [this]
          · rw [if_neg h5]
            by_cases h6 : c ∈ player_tip SideOfStar.A ∧ (b.get c).isSome = true
            · rw [if_pos h6]
              have : q = SideOfStar.A := by
                by_contra hne
                exact tips_disjoint q SideOfStar.A hne c hc h6.1
              rw [this]
            · exfalso
              cases q
              · exact h6 ⟨hc, hpres⟩
              · exact h5 ⟨hc, hpres⟩
              · exact h4 ⟨hc, hpres⟩
              · exact h3 ⟨hc, hpres⟩
              · exact h2 ⟨hc, hpres⟩
              · exact h1 ⟨hc, hpres⟩

/-- Counterexample to C9 as stated: a reachable state in which a move has
vacated the cell `(4,-5)` of `A`'s starting tip; removing `D` from the
active sides and re-running setup then rewrites that cell — which lies
outside `D`'s tip — from `Empty` back to `Occupied(A)`, so setup does not
leave every cell outside the removed side's tip unchanged. -/
theorem claim_C9_counterexample :
    (⟨4, -5⟩ : HexCoord) ∉ player_tip SideOfStar.D ∧
    SideOfStar.D ∈ c9Board1.players ∧
    c9Board1.get ⟨4, -5⟩ = some Spot.Empty ∧
    c9Board3.get ⟨4, -5⟩ = some (Spot.Player SideOfStar.A) := by
  refine ⟨by decide, by decide, by decide, by decide⟩

/-- C9 (amended): the frame property holds for boards in a post-setup
configuration — each side's 10 tip cells hold exactly what setup writes
(the side's pieces if active, `Empty` if not), as is the case right after
`setup()` and before any move.  For such a board, removing one active side
and re-running setup sets exactly that side's 10 tip cells to `Empty` and
leaves every other cell unchanged. -/
theorem claim_C9_frame_effect (b : Board) (s : SideOfStar)
    (hmem : s ∈ b.players)
    (hpre : ∀ q : SideOfStar, q ≠ s → ∀ c ∈ player_tip q,
      (b.get c).isSome = true → b.get c = some (setupSpot b.players q))
    (hstips : ∀ c ∈ player_tip s, (b.get c).isSome = true) :
    (∀ c ∈ player_tip s,
      (Board.setup_players
        { b with players := b.players.filter (fun q => q ≠ s) }).get c =
        some Spot.Empty) ∧
    (∀ c, c ∉ player_tip s →
      (Board.setup_players
        { b with players := b.players.filter (fun q => q ≠ s) }).get c =
        b.get c) := by
  have hget : ∀ k, ({ b with
      players := b.players.filter (fun q => q ≠ s) } : Board).get k =
      b.get k := fun _ => rfl
  have hpl2 : ({ b with
      players := b.players.filter (fun q => q ≠ s) } : Board).players =
      b.players.filter (fun q => q ≠ s) := rfl
  constructor
  · intro c hc
    have hpres := hstips c hc
    rw [get_setup_players]
    simp only [hget, hpl2]
    by_cases h1 : c ∈ player_tip SideOfStar.F ∧ (b.get c).isSome = true
    · rw [if_pos h1]
      have hsq : s = SideOfStar.F := by
        by_contra hne
        exact tips_disjoint s SideOfStar.F hne c hc h1.1
      subst hsq
      simp [setupSpot, List.mem_filter]
    rw [if_neg h1]
    by_cases h2 : c ∈ player_tip SideOfStar.E ∧ (b.get c).isSome = true
    · rw [if_pos h2]
      have hsq : s = SideOfStar.E := by
        by_contra hne
        exact tips_disjoint s SideOfStar.E hne c hc h2.1
      subst hsq
      simp [setupSpot, List.mem_filter]
    rw [if_neg h2]
    by_cases h3 : c ∈ player_tip SideOfStar.D ∧ (b.get c).isSome = true
    · rw [if_pos h3]
      have hsq : s = SideOfStar.D := by
        by_contra hne
        exact tips_disjoint s SideOfStar.D hne c hc h3.1
      subst hsq
      simp [setupSpot, List.mem_filter]
    rw [if_neg h3]
    by_cases h4 : c ∈ player_tip SideOfStar.C ∧ (b.get c).isSome = true
    · rw [if_pos h4]
      have hsq : s = SideOfStar.C := by
        by_contra hne
        exact tips_disjoint s SideOfStar.C hne c hc h4.1
      subst hsq
      simp [setupSpot, List.mem_filter]
    rw [if_neg h4]
    by_cases h5 : c ∈ player_tip SideOfStar.B ∧ (b.get c).isSome = true
    · rw [if_pos h5]
      have hsq : s = SideOfStar.B := by
        by_contra hne
        exact tips_disjoint s SideOfStar.B hne c hc h5.1
      subst hsq
      simp [setupSpot, List.mem_filter]
    rw [if_neg h5]
    by_cases h6 : c ∈ player_tip SideOfStar.A ∧ (b.get c).isSome = true
    · rw [if_pos h6]
      have hsq : s = SideOfStar.A := by
        by_contra hne
        exact tips_disjoint s SideOfStar.A hne c hc h6.1
      subst hsq
      simp [setupSpot, List.mem_filter]
    exfalso
    cases hs2 : s
    · exact h6 ⟨hs2 ▸ hc, hpres⟩
    · exact h5 ⟨hs2 ▸ hc, hpres⟩
    · exact h4 ⟨hs2 ▸ hc, hpres⟩
    · exact h3 ⟨hs2 ▸ hc, hpres⟩
    · exact h2 ⟨hs2 ▸ hc, hpres⟩
    · exact h1 ⟨hs2 ▸ hc, hpres⟩
  · intro c hcs
    rw [get_setup_players]
    simp only [hget, hpl2]
    by_cases h1 : c ∈ player_tip SideOfStar.F ∧ (b.get c).isSome = true
    · rw [if_pos h1]
      have hqs : SideOfStar.F ≠ s := fun h => hcs (h ▸ h1.1)
      rw [hpre SideOfStar.F hqs c h1.1 h1.2]
      simp [setupSpot, List.mem_filter, hqs]
    rw [if_neg h1]
    by_cases h2 : c ∈ player_tip SideOfStar.E ∧ (b.get c).isSome = true
    · rw [if_pos h2]
      have hqs : SideOfStar.E ≠ s := fun h => hcs (h ▸ h2.1)
      rw [hpre SideOfStar.E hqs c h2.1 h2.2]
      simp [setupSpot, List.mem_filter, hqs]
    rw [if_neg h2]
    by_cases h3 : c ∈ player_tip SideOfStar.D ∧ (b.get c).isSome = true
    · rw [if_pos h3]
      have hqs : SideOfStar.D ≠ s := fun h => hcs (h ▸ h3.1)
      rw [hpre SideOfStar.D hqs c h3.1 h3.2]
      simp [setupSpot, List.mem_filter, hqs]
    rw [if_neg h3]
    by_cases h4 : c ∈ player_tip SideOfStar.C ∧ (b.get c).isSome = true
    · rw [if_pos h4]
      have hqs : SideOfStar.C ≠ s := fun h => hcs (h ▸ h4.1)
      rw [hpre SideOfStar.C hqs c h4.1 h4.2]
      simp [setupSpot, List.mem_filter, hqs]
    rw [if_neg h4]
    by_cases h5 : c ∈ player_tip SideOfStar.B ∧ (b.get c).isSome = true
    · rw [if_pos h5]
      have hqs : SideOfStar.B ≠ s := fun h => hcs (h ▸ h5.1)
      rw [hpre SideOfStar.B hqs c h5.1 h5.2]
      simp [setupSpot, List.mem_filter, hqs]
    rw [if_neg h5]
    by_cases h6 : c ∈ player_tip SideOfStar.A ∧ (b.get c).isSome = true
    · rw [if_pos h6]
      have hqs : SideOfStar.A ≠ s := fun h => hcs (h ▸ h6.1)
      rw [hpre SideOfStar.A hqs c h6.1 h6.2]
      simp [setupSpot, List.mem_filter, hqs]
    rw [if_neg h6]

/-- Witness for the amended C9: a fresh two-player board is in post-setup
configuration; removing `D` and re-running setup empties `D`'s tip root
`(-4,8)` and leaves `A`'s occupied tip root `(4,-8)` unchanged. -/
theorem claim_C9_witness :
    (Board.setup_players
      { Board.new 2 with
        players := (Board.new 2).players.filter
          (fun q => q ≠ SideOfStar.D) }).get ⟨-4, 8⟩ = some Spot.Empty ∧
    (Board.setup_players
      { Board.new 2 with
        players := (Board.new 2).players.filter
          (fun q => q ≠ SideOfStar.D) }).get ⟨4, -8⟩ =
      (Board.new 2).get ⟨4, -8⟩ := by
  have hpre : ∀ q : SideOfStar, q ≠ SideOfStar.D → ∀ c ∈ player_tip q,
      ((Board.new 2).get c).isSome = true →
      (Board.new 2).get c = some (setupSpot (Board.new 2).players q) := by
    intro q hq c hc hpres
    have hb : Board.new 2 = Board.setup_players
        { board := gen_board, players := gen_players 2,
          turn := SideOfStar.A } := rfl
    rw [hb]
    rw [hb] at hpres
    rw [isSome_get_setup_players] at hpres
    rw [get_setup_players_tip _ q c hc hpres]
    rw [players_setup_players]
  have h := claim_C9_frame_effect (Board.new 2) SideOfStar.D (by decide)
    hpre (by decide)
  exact ⟨h.1 ⟨-4, 8⟩ (by decide), h.2 ⟨4, -8⟩ (by decide)⟩

/-- C10: for every board state and coordinate `c`, `make_move(c, c)`
returns false and leaves the board unchanged: when `c` is occupied the
occupied-destination check fails against the same cell, and when `c` is
empty the empty-origin check fails. -/
theorem claim_C10_self_move_rejected (b : Board) (c : HexCoord) :
    b.make_move c c = (b, false) := by
  have hv : b.validate_move c c = false := by
    unfold Board.validate_move
    cases hg : b.get c with
    | none => simp
    | some sp =>
      cases sp with
      | Empty => simp [Spot.is_empty]
      | Player p => simp [Spot.is_empty, Spot.is_full]
  simp [Board.make_move, hv]

end Checkers
